import Mathlib

/-!
Verification of the ledger engine of the CBD-LAB-3 repository
(`src/hadcoin_node_5001.py` and `src/blockchain.py`).

The Python engine is shallowly embedded as follows.

* `hashlib.sha256(s.encode()).hexdigest()` is an external primitive, modelled
  by an explicit function parameter `sha : String → String`.  Every theorem is
  stated for an arbitrary such function; properties that genuinely depend on
  the digest being collision free take `Function.Injective sha` as an explicit
  hypothesis.
* Python `str(n)` on a non-negative integer is modelled by `natStr`, and on a
  possibly negative integer by `intStr` (decimal digits with a leading minus
  sign for negatives).
* `json.dumps(tx, sort_keys=True)` on a transaction dictionary
  `{'sender': s, 'receiver': r, 'amount': a}` is modelled by `txDumps`
  (keys emitted in sorted order `amount`, `receiver`, `sender`, with the
  default `", "` and `": "` separators).  String values are quoted and the
  characters `"` and `\` are escaped, as `json.dumps` does; control characters
  and non-ASCII escapes are not modelled (the engine never produces them).
* The mutable `Blockchain` object (fields `chain`, `transactions`, `nodes`)
  becomes the record `NodeState`, and each Python method becomes a function
  from the old state to the new state plus its return value.
* The unbounded `while` loops (`proof_of_work` and the Merkle level loop)
  terminate after finitely many steps whenever they terminate at all; they are
  embedded with an explicit step bound that is provably sufficient
  (`merkleLevels`) or with `Nat.find` over the loop's exit condition
  (`proof_of_work`), together with a step-indexed transcription of the loop
  body (`powAux`) that is proved to agree with it.
* Network traffic in `replace_chain` is modelled by a list of peer responses,
  one entry per scanned peer: `none` for an unreachable peer or a non-200
  status, and `some (length, chain)` for the JSON fields of a 200 response.
-/

/-- Decimal digits of `n`, most significant first, as produced by Python
`str` on a non-negative integer.  `fuel` is a structural bound on the number
of divisions by 10; `fuel = n + 1` always suffices. -/
def natDigitsAux : Nat → Nat → List Char
  | 0, _ => []
  | fuel + 1, n =>
    if n < 10 then [Nat.digitChar n]
    else natDigitsAux fuel (n / 10) ++ [Nat.digitChar (n % 10)]

/-- Model of Python `str(n)` for a non-negative integer `n`. -/
def natStr (n : Nat) : String :=
  String.mk (natDigitsAux (n + 1) n)

/-- Model of Python `str(i)` / JSON number output for an integer `i`. -/
def intStr (i : Int) : String :=
  if i < 0 then "-" ++ natStr (-i).toNat else natStr i.toNat

/-- JSON escaping of a single character as performed by `json.dumps` on the
characters the engine actually handles (`"` and `\` are escaped, every other
printable character is emitted verbatim). -/
def escChar (c : Char) : List Char :=
  if c = '"' then ['\\', '"']
  else if c = '\\' then ['\\', '\\']
  else [c]

/-- JSON escaping of a character list. -/
def escList : List Char → List Char
  | [] => []
  | c :: cs => escChar c ++ escList cs

/-- Model of the JSON serialization of a string value: surrounding quotes
with the body escaped. -/
def jsonStr (s : String) : String :=
  String.mk ('"' :: (escList s.data ++ ['"']))

/-- Transaction value object: `{'sender': ..., 'receiver': ..., 'amount': ...}`.
Equality is structural, exactly as for the Python dictionaries. -/
structure Transaction where
  sender : String
  receiver : String
  amount : Int
  deriving DecidableEq, Inhabited

/-- Model of `json.dumps(tx, sort_keys=True)` for a single transaction:
keys in sorted order (`amount`, `receiver`, `sender`), default separators. -/
def txDumps (t : Transaction) : String :=
  "\x7b\"amount\": " ++ intStr t.amount
    ++ ", \"receiver\": " ++ jsonStr t.receiver
    ++ ", \"sender\": " ++ jsonStr t.sender ++ "\x7d"

/-- Model of `json.dumps(transactions, sort_keys=True)` for a list of
transactions. -/
def txListDumps (txs : List Transaction) : String :=
  "[" ++ String.intercalate ", " (txs.map txDumps) ++ "]"

/-- Block record, with the exact field set built by `create_block`. -/
structure Block where
  index : Nat
  timestamp : String
  proof : Nat
  previous_hash : String
  merkle_root : String
  transactions : List Transaction
  block_hash : String
  deriving DecidableEq, Inhabited

/-- State of one `Blockchain` object: the chain, the mempool
(`self.transactions`) and the registered peer locations (`self.nodes`,
a Python set here modelled as the list of its elements). -/
structure NodeState where
  chain : List Block
  transactions : List Transaction
  nodes : List String
  deriving DecidableEq, Inhabited

/-- One duplication step of `get_merkle_root`: if the current level has an
odd number of values, the last value is appended once
(`temp_transactions.append(temp_transactions[-1])`). -/
def padIfOdd (l : List String) : List String :=
  if l.length % 2 ≠ 0 then l ++ [l.getLast!] else l

/-- One pairing step of `get_merkle_root`: adjacent values are concatenated
and hashed (`for i in range(0, len, 2): sha256(t[i] + t[i+1])`).  The
single-element case is unreachable in the source (the level is always evened
out first) and is mapped to the empty level. -/
def pairHash (sha : String → String) : List String → List String
  | [] => []
  | [_] => []
  | a :: b :: rest => sha (a ++ b) :: pairHash sha rest

/-- The `while len(temp_transactions) > 1` loop of `get_merkle_root`.
`fuel` bounds the number of iterations; every level except the last has at
least two values, each iteration strictly shrinks the level, so
`fuel = initial level length` is always sufficient (proved below in
`merkleLevels_congr`).  The fuel-exhausted and empty-level cases are
unreachable under that bound. -/
def merkleLevels (sha : String → String) : Nat → List String → String
  | _, [] => ""
  | _, [x] => x
  | 0, a :: _ :: _ => a
  | fuel + 1, a :: b :: rest =>
    merkleLevels sha fuel (pairHash sha (padIfOdd (a :: b :: rest)))

/-- Full level reduction of a non-empty leaf level, with the sufficient
iteration bound instantiated. -/
def merkleReduce (sha : String → String) (l : List String) : String :=
  merkleLevels sha l.length l

/-- Model of `Blockchain.get_merkle_root`: `'0'` for an empty transaction
list, otherwise the level reduction of the serialized transactions (the first
level is the serialized strings themselves, unhashed). -/
def get_merkle_root (sha : String → String) (transactions : List Transaction) : String :=
  match transactions with
  | [] => "0"
  | _ => merkleReduce sha (transactions.map txDumps)

/-- The string hashed by `proof_of_work`, `mine_block` and
`compute_block_hash`:
`str(proof) + str(block_index) + timestamp + previous_hash + merkle_root + tx_data`
where `tx_data = json.dumps(transactions, sort_keys=True)`. -/
def powData (proof block_index : Nat) (timestamp previous_hash merkle_root : String)
    (transactions : List Transaction) : String :=
  natStr proof ++ natStr block_index ++ timestamp ++ previous_hash ++ merkle_root
    ++ txListDumps transactions

/-- Exit condition of the `proof_of_work` loop: the hex digest of
`powData` for the candidate nonce starts with three `'0'` digits
(`hash_operation[:3] == '000'`). -/
def powCheck (sha : String → String) (block_index : Nat)
    (timestamp previous_hash merkle_root : String) (transactions : List Transaction)
    (n : Nat) : Bool :=
  decide ((sha (powData n block_index timestamp previous_hash merkle_root transactions)).take 3
    = "000")

/-- Step-indexed transcription of the `proof_of_work` loop body: starting
from candidate nonce `n`, try at most `fuel` candidates, returning the first
one that passes `check`. -/
def powAux (check : Nat → Bool) : Nat → Nat → Option Nat
  | 0, _ => none
  | fuel + 1, n => if check n then some n else powAux check fuel (n + 1)

/-- Model of `Blockchain.proof_of_work`.  The Python loop starts at nonce 0,
increments by 1, and returns the first nonce passing the check; it terminates
exactly when some nonce passes, which is taken as the hypothesis `h`.
`Nat.find h` is that first nonce; the agreement with the step transcription
`powAux` is proved below. -/
def proof_of_work (sha : String → String) (block_index : Nat)
    (timestamp previous_hash merkle_root : String) (transactions : List Transaction)
    (h : ∃ n, powCheck sha block_index timestamp previous_hash merkle_root transactions n
      = true) : Nat :=
  Nat.find h

/-- Model of `Blockchain.compute_block_hash`: re-hash of the stored block
fields. -/
def compute_block_hash (sha : String → String) (b : Block) : String :=
  sha (powData b.proof b.index b.timestamp b.previous_hash b.merkle_root b.transactions)

/-- The `while block_index < len(chain)` loop of `is_chain_valid`: validate
every block after the first against its predecessor. -/
def validFrom (sha : String → String) (previous_block : Block) : List Block → Bool
  | [] => true
  | b :: rest =>
    if b.previous_hash ≠ previous_block.block_hash then false
    else if get_merkle_root sha b.transactions ≠ b.merkle_root then false
    else if (compute_block_hash sha b).take 3 ≠ "000" then false
    else if b.block_hash ≠ compute_block_hash sha b then false
    else validFrom sha b rest

/-- Model of `Blockchain.is_chain_valid`: an empty chain is valid; otherwise
the first block must carry the genesis sentinel `'0'`, a matching Merkle
root, a difficulty-passing recomputed hash equal to its stored `block_hash`,
and every later block must additionally link to its predecessor's stored
`block_hash`. -/
def is_chain_valid (sha : String → String) : List Block → Bool
  | [] => true
  | first_block :: rest =>
    if first_block.previous_hash ≠ "0" then false
    else if get_merkle_root sha first_block.transactions ≠ first_block.merkle_root then false
    else if (compute_block_hash sha first_block).take 3 ≠ "000" then false
    else if first_block.block_hash ≠ compute_block_hash sha first_block then false
    else validFrom sha first_block rest

/-- Model of `get_previous_block` followed by the hash selection in both
`mine_block` route handlers: `'0'` when the chain is empty, otherwise the
stored `block_hash` of the last block. -/
def lastBlockHash (chain : List Block) : String :=
  match chain.getLast? with
  | none => "0"
  | some b => b.block_hash

/-- Model of Python `list.remove(x)`: drop the first occurrence of `x`
(value equality). -/
def removeFirst (tx : Transaction) : List Transaction → List Transaction
  | [] => []
  | t :: rest => if t = tx then rest else t :: removeFirst tx rest

/-- The mempool-reconciliation loop of `Blockchain.create_block` in
`hadcoin_node_5001.py`:
`for tx in transactions: if tx in self.transactions: self.transactions.remove(tx)`. -/
def removeAll (txs : List Transaction) (mempool : List Transaction) : List Transaction :=
  txs.foldl (fun m tx => if tx ∈ m then removeFirst tx m else m) mempool

/-- Model of `Blockchain.create_block` in `hadcoin_node_5001.py`: build the
block record with `index = len(self.chain) + 1`, remove each mined
transaction from the mempool (first occurrence, value equality), append the
block to the chain, and return it. -/
def create_block (s : NodeState) (proof : Nat) (previous_hash merkle_root : String)
    (transactions : List Transaction) (timestamp block_hash : String) :
    NodeState × Block :=
  let block : Block :=
    { index := s.chain.length + 1, timestamp := timestamp, proof := proof,
      previous_hash := previous_hash, merkle_root := merkle_root,
      transactions := transactions, block_hash := block_hash }
  ({ s with chain := s.chain ++ [block],
            transactions := removeAll transactions s.transactions }, block)

/-- Model of `Blockchain.create_block` in `blockchain.py`: identical block
construction and append, but no mempool reconciliation. -/
def create_block_api (s : NodeState) (proof : Nat) (previous_hash merkle_root : String)
    (transactions : List Transaction) (timestamp block_hash : String) :
    NodeState × Block :=
  let block : Block :=
    { index := s.chain.length + 1, timestamp := timestamp, proof := proof,
      previous_hash := previous_hash, merkle_root := merkle_root,
      transactions := transactions, block_hash := block_hash }
  ({ s with chain := s.chain ++ [block] }, block)

/-- Model of `Blockchain.add_transaction` (`hadcoin_node_5001.py`) and the
identical `Blockchain.create_transaction` (`blockchain.py`): append the
transaction to the mempool and return `1` when the chain is empty, otherwise
the last block's stored `index` plus one. -/
def add_transaction (s : NodeState) (sender receiver : String) (amount : Int) :
    NodeState × Nat :=
  let s' : NodeState :=
    { s with transactions :=
        s.transactions ++ [{ sender := sender, receiver := receiver, amount := amount }] }
  match s.chain.getLast? with
  | none => (s', 1)
  | some b => (s', b.index + 1)

/-- Model of the `GET /mine_block` handler of `hadcoin_node_5001.py`.
The timestamp (`str(datetime.datetime.now())`) and this node's reward
address (`node_address`) are inputs.  The hypothesis `h` states that the
`proof_of_work` loop for the assembled candidate block terminates; it is
only needed on the success path.  The result is the new state together with
either the mined block or the 400-error message. -/
def mine_block_node (sha : String → String) (node_address timestamp : String)
    (s : NodeState)
    (h : s.transactions ≠ [] →
      ∃ n, powCheck sha (s.chain.length + 1) timestamp (lastBlockHash s.chain)
        (get_merkle_root sha (s.transactions.take 5)) (s.transactions.take 5) n = true) :
    NodeState × Except String Block :=
  if hlt : s.transactions.length < 1 then
    (s, Except.error "No pending transactions to mine. Add at least 1 transaction first.")
  else
    let transactions_to_mine := s.transactions.take 5
    -- reward transaction: blockchain.add_transaction('NETWORK', node_address, 1);
    -- the chain is unchanged by it, so the later reads of `self.chain` still see `s.chain`
    let s1 := (add_transaction s "NETWORK" node_address 1).1
    let previous_hash := lastBlockHash s.chain
    let merkle_root := get_merkle_root sha transactions_to_mine
    let block_index := s.chain.length + 1
    let proof := proof_of_work sha block_index timestamp previous_hash merkle_root
      transactions_to_mine
      (h (fun hnil => by simp [hnil] at hlt))
    let block_hash := sha (powData proof block_index timestamp previous_hash merkle_root
      transactions_to_mine)
    let r := create_block s1 proof previous_hash merkle_root transactions_to_mine timestamp
      block_hash
    (r.1, Except.ok r.2)

/-- Model of the `GET /mine_block` handler of `blockchain.py`: requires at
least five pending transactions, removes the first five from the mempool by
slicing, and appends the mined block via its (non-reconciling)
`create_block`. -/
def mine_block_api (sha : String → String) (timestamp : String) (s : NodeState)
    (h : 5 ≤ s.transactions.length →
      ∃ n, powCheck sha (s.chain.length + 1) timestamp (lastBlockHash s.chain)
        (get_merkle_root sha (s.transactions.take 5)) (s.transactions.take 5) n = true) :
    NodeState × Except String Block :=
  if hlt : s.transactions.length < 5 then
    (s, Except.error ("Not enough transactions to mine (min 5). Current: "
      ++ natStr s.transactions.length))
  else
    let transactions_to_mine := s.transactions.take 5
    let s1 := { s with transactions := s.transactions.drop 5 }
    let previous_hash := lastBlockHash s.chain
    let merkle_root := get_merkle_root sha transactions_to_mine
    let block_index := s.chain.length + 1
    let proof := proof_of_work sha block_index timestamp previous_hash merkle_root
      transactions_to_mine (h (by omega))
    let block_hash := sha (powData proof block_index timestamp previous_hash merkle_root
      transactions_to_mine)
    let r := create_block_api s1 proof previous_hash merkle_root transactions_to_mine
      timestamp block_hash
    (r.1, Except.ok r.2)

/-- One peer's contribution to `replace_chain`: `none` models a request that
raised `ConnectionError` or returned a non-200 status (the peer is skipped),
`some (length, chain)` models the `length` and `chain` fields of a 200
response.  The reported length is an independent field of the response and is
not recomputed from the reported chain, exactly as in the source. -/
abbrev PeerResponse := Option (Nat × List Block)

/-- The `for node in network` loop of `Blockchain.replace_chain`, carrying
the running `(max_length, longest_chain)` pair (with `longest_chain = none`
standing for Python's initial `None`). -/
def replaceLoop (sha : String → String) (acc : Nat × Option (List Block)) :
    List PeerResponse → Nat × Option (List Block)
  | [] => acc
  | none :: rest => replaceLoop sha acc rest
  | some (length, chain) :: rest =>
    if acc.1 < length ∧ is_chain_valid sha chain = true then
      replaceLoop sha (length, some chain) rest
    else
      replaceLoop sha acc rest

/-- Model of `Blockchain.replace_chain`: scan the peer responses, then
`if longest_chain:` — the chain is replaced exactly when the surviving
candidate is not `None` and not the empty list (Python truthiness of a
list). -/
def replace_chain (sha : String → String) (s : NodeState) (responses : List PeerResponse) :
    NodeState × Bool :=
  match (replaceLoop sha (s.chain.length, none) responses).2 with
  | some c => if c ≠ [] then ({ s with chain := c }, true) else (s, false)
  | none => (s, false)

/-- The same peer scan written as a left fold, used to state the consensus
claims independently of the loop transcription above. -/
def winnerOf (sha : String → String) (len0 : Nat) (responses : List PeerResponse) :
    Nat × Option (List Block) :=
  responses.foldl
    (fun acc r =>
      match r with
      | none => acc
      | some (length, chain) =>
        if acc.1 < length ∧ is_chain_valid sha chain = true then (length, some chain)
        else acc)
    (len0, none)

/-- States reachable through the mining pipeline: the freshly constructed
`Blockchain` (empty chain, empty mempool, no peers), transaction submissions,
and the two `mine_block` handlers (each with an arbitrary timestamp, reward
address, and a termination certificate for its `proof_of_work` search). -/
inductive Reachable (sha : String → String) : NodeState → Prop
  | init : Reachable sha ⟨[], [], []⟩
  | addTx (s : NodeState) (sender receiver : String) (amount : Int) :
      Reachable sha s → Reachable sha (add_transaction s sender receiver amount).1
  | mineNode (s : NodeState) (node_address timestamp : String) (h : _) :
      Reachable sha s →
      Reachable sha (mine_block_node sha node_address timestamp s h).1
  | mineApi (s : NodeState) (timestamp : String) (h : _) :
      Reachable sha s →
      Reachable sha (mine_block_api sha timestamp s h).1

/-- Single-field mutation of a block, over exactly the fields listed in the
tamper-evidence property: timestamp, nonce (`proof`), `previous_hash`,
`merkle_root`, one transaction, or `block_hash`; the new value must differ
from the old one. -/
inductive MutatedBlock : Block → Block → Prop
  | timestamp (b : Block) (v : String) :
      v ≠ b.timestamp → MutatedBlock b { b with timestamp := v }
  | proof (b : Block) (v : Nat) :
      v ≠ b.proof → MutatedBlock b { b with proof := v }
  | previous_hash (b : Block) (v : String) :
      v ≠ b.previous_hash → MutatedBlock b { b with previous_hash := v }
  | merkle_root (b : Block) (v : String) :
      v ≠ b.merkle_root → MutatedBlock b { b with merkle_root := v }
  | transaction (b : Block) (pre : List Transaction) (t t' : Transaction)
      (post : List Transaction) :
      b.transactions = pre ++ t :: post → t' ≠ t →
      MutatedBlock b { b with transactions := pre ++ t' :: post }
  | block_hash (b : Block) (v : String) :
      v ≠ b.block_hash → MutatedBlock b { b with block_hash := v }

/-- The per-block conditions of the chain validator, as stated in the spec:
link to the expected predecessor hash, matching recomputed Merkle root,
difficulty-passing recomputed hash, and stored hash equal to the recomputed
one. -/
def blockConds (sha : String → String) (expected_prev : String) (b : Block) : Prop :=
  b.previous_hash = expected_prev ∧
  get_merkle_root sha b.transactions = b.merkle_root ∧
  (compute_block_hash sha b).take 3 = "000" ∧
  b.block_hash = compute_block_hash sha b

/-- The expected predecessor hash of position `i` of a chain: the genesis
sentinel for the first block, the stored `block_hash` of block `i - 1`
otherwise. -/
def expectedPrev (chain : List Block) (i : Nat) : String :=
  if i = 0 then "0" else (chain.getD (i - 1) default).block_hash

/-- Declarative transcription of the validator conditions, quantified over
block positions. -/
def chainValidSpec (sha : String → String) (chain : List Block) : Prop :=
  ∀ i, i < chain.length → blockConds sha (expectedPrev chain i) (chain.getD i default)

/-- Concrete digest function used to instantiate the abstract SHA-256
parameter in witnesses: it is injective and every output passes the
three-zero difficulty test. -/
def sha0 (s : String) : String :=
  "000" ++ s

/-- Concrete block used by witnesses: a genesis block over an empty
transaction batch, valid for the `sha0` digest. -/
def wBlock : Block :=
  { index := 1, timestamp := "t", proof := 0, previous_hash := "0", merkle_root := "0",
    transactions := [], block_hash := sha0 (powData 0 1 "t" "0" "0" []) }

/-- Concrete block with a stored index unrelated to its chain position, used
by the counterexample to the submission-index claim; it is valid for the
`sha0` digest. -/
def wBlock7 : Block :=
  { index := 7, timestamp := "t", proof := 0, previous_hash := "0", merkle_root := "0",
    transactions := [], block_hash := sha0 (powData 0 7 "t" "0" "0" []) }

/-- Decimal decoder used to prove that the printer `natDigitsAux` is
injective. -/
def decDigits (l : List Char) : Nat :=
  l.foldl (fun acc c => 10 * acc + (c.toNat - 48)) 0

theorem natDigitsAux_congr : ∀ (f g n : Nat), n < f → n < g →
    natDigitsAux f n = natDigitsAux g n
  | 0, _, _, hf, _ => absurd hf (by omega)
  | _ + 1, 0, _, _, hg => absurd hg (by omega)
  | f + 1, g + 1, n, hf, hg => by
    by_cases h10 : n < 10
    · simp [natDigitsAux, h10]
    · simp only [natDigitsAux, if_neg h10]
      rw [natDigitsAux_congr f g (n / 10) (by omega) (by omega)]

theorem natDigitsAux_step (n : Nat) (h10 : 10 ≤ n) :
    natDigitsAux (n + 1) n
      = natDigitsAux (n / 10 + 1) (n / 10) ++ [Nat.digitChar (n % 10)] := by
  conv_lhs => rw [natDigitsAux]
  rw [if_neg (by omega : ¬ n < 10),
    natDigitsAux_congr n (n / 10 + 1) (n / 10) (by omega) (by omega)]

theorem decDigits_append (l : List Char) (c : Char) :
    decDigits (l ++ [c]) = 10 * decDigits l + (c.toNat - 48) := by
  simp [decDigits, List.foldl_append]

theorem digitChar_toNat (d : Nat) (h : d < 10) : (Nat.digitChar d).toNat = 48 + d := by
  interval_cases d <;> rfl

theorem digitChar_isDigit (d : Nat) (h : d < 10) : (Nat.digitChar d).isDigit = true := by
  interval_cases d <;> rfl

theorem decDigits_natDigitsAux (n : Nat) : decDigits (natDigitsAux (n + 1) n) = n := by
  by_cases h10 : n < 10
  · simp [natDigitsAux, h10, decDigits, digitChar_toNat n h10]
  · rw [natDigitsAux_step n (by omega), decDigits_append,
      decDigits_natDigitsAux (n / 10), digitChar_toNat (n % 10) (by omega)]
    omega
termination_by n
decreasing_by omega

theorem natDigitsAux_isDigit (n : Nat) :
    ∀ c ∈ natDigitsAux (n + 1) n, c.isDigit = true := by
  by_cases h10 : n < 10
  · simp only [natDigitsAux, if_pos h10]
    intro c hc
    simp only [List.mem_singleton] at hc
    subst hc
    exact digitChar_isDigit n h10
  · rw [natDigitsAux_step n (by omega)]
    intro c hc
    rcases List.mem_append.1 hc with h | h
    · exact natDigitsAux_isDigit (n / 10) c h
    · simp only [List.mem_singleton] at h
      subst h
      exact digitChar_isDigit (n % 10) (by omega)
termination_by n
decreasing_by omega

theorem natDigitsAux_ne_nil (n : Nat) : natDigitsAux (n + 1) n ≠ [] := by
  by_cases h10 : n < 10
  · simp [natDigitsAux, h10]
  · rw [natDigitsAux_step n (by omega)]
    simp

theorem natStr_inj : Function.Injective natStr := by
  intro m n h
  have hd : natDigitsAux (m + 1) m = natDigitsAux (n + 1) n := congrArg String.data h
  have := congrArg decDigits hd
  rwa [decDigits_natDigitsAux, decDigits_natDigitsAux] at this

theorem natStr_data_isDigit (n : Nat) : ∀ c ∈ (natStr n).data, c.isDigit = true :=
  natDigitsAux_isDigit n

theorem natStr_head_digit (n : Nat) :
    ∃ c cs, (natStr n).data = c :: cs ∧ c.isDigit = true := by
  rcases hd : (natStr n).data with _ | ⟨c, cs⟩
  · exact absurd hd (natDigitsAux_ne_nil n)
  · exact ⟨c, cs, rfl, natStr_data_isDigit n c (by rw [hd]; simp)⟩

theorem intStr_data_ok (i : Int) :
    ∀ c ∈ (intStr i).data, c.isDigit = true ∨ c = '-' := by
  intro c hc
  by_cases hneg : i < 0
  · rcases (by simpa [intStr, hneg] using hc : c = '-' ∨ c ∈ (natStr (-i).toNat).data)
      with h | h
    · right
      exact h
    · left
      exact natStr_data_isDigit _ c h
  · simp only [intStr, if_neg hneg] at hc
    left
    exact natStr_data_isDigit _ c hc

theorem intStr_inj : Function.Injective intStr := by
  intro i j h
  have hd := congrArg String.data h
  by_cases hi : i < 0 <;> by_cases hj : j < 0
  · simp only [intStr, if_pos hi, if_pos hj, String.data_append] at hd
    have h2 : (natStr (-i).toNat).data = (natStr (-j).toNat).data := by
      simpa using hd
    have h3 : (-i).toNat = (-j).toNat := natStr_inj (String.ext h2)
    omega
  · exfalso
    simp only [intStr, if_pos hi, if_neg hj, String.data_append] at hd
    obtain ⟨c, cs, hcons, hdig⟩ := natStr_head_digit j.toNat
    rw [hcons] at hd
    have hc : ('-' : Char) = c := by
      have := congrArg (fun l => l.headI) hd
      simpa using this
    rw [← hc] at hdig
    exact absurd hdig (by decide)
  · exfalso
    simp only [intStr, if_pos hj, if_neg hi, String.data_append] at hd
    obtain ⟨c, cs, hcons, hdig⟩ := natStr_head_digit i.toNat
    rw [hcons] at hd
    have hc : c = ('-' : Char) := by
      have := congrArg (fun l => l.headI) hd
      simpa using this
    rw [hc] at hdig
    exact absurd hdig (by decide)
  · simp only [intStr, if_neg hi, if_neg hj] at h
    have h3 : i.toNat = j.toNat := natStr_inj h
    omega

theorem sep_boundary {sep : Char} :
    ∀ {A1 A2 r1 r2 : List Char}, (∀ c ∈ A1, c ≠ sep) → (∀ c ∈ A2, c ≠ sep) →
      A1 ++ sep :: r1 = A2 ++ sep :: r2 → A1 = A2 ∧ r1 = r2 := by
  intro A1
  induction A1 with
  | nil =>
    intro A2 r1 r2 _ h2 h
    cases A2 with
    | nil => simpa using h
    | cons b bs =>
      simp only [List.nil_append, List.cons_append, List.cons.injEq] at h
      exact absurd h.1.symm (h2 b (by simp))
  | cons a as ih =>
    intro A2 r1 r2 h1 h2 h
    cases A2 with
    | nil =>
      simp only [List.nil_append, List.cons_append, List.cons.injEq] at h
      exact absurd h.1 (h1 a (by simp))
    | cons b bs =>
      simp only [List.cons_append, List.cons.injEq] at h
      obtain ⟨hab, ht⟩ := h
      obtain ⟨he, hr⟩ := ih (fun c hc => h1 c (by simp [hc]))
        (fun c hc => h2 c (by simp [hc])) ht
      exact ⟨by rw [hab, he], hr⟩

theorem esc_boundary :
    ∀ (l1 l2 r1 r2 : List Char),
      escList l1 ++ '"' :: r1 = escList l2 ++ '"' :: r2 → l1 = l2 ∧ r1 = r2
  | [], [], r1, r2, h => by simpa [escList] using h
  | [], b :: bs, r1, r2, h => by
    exfalso
    by_cases hq : b = '"'
    · rw [show escList (b :: bs) = '\\' :: '"' :: escList bs by simp [escList, escChar, hq]]
        at h
      simp only [escList, List.nil_append, List.cons_append, List.cons.injEq] at h
      exact absurd h.1 (by decide)
    · by_cases hs : b = '\\'
      · rw [show escList (b :: bs) = '\\' :: '\\' :: escList bs by
          simp [escList, escChar, hq, hs]] at h
        simp only [escList, List.nil_append, List.cons_append, List.cons.injEq] at h
        exact absurd h.1 (by decide)
      · rw [show escList (b :: bs) = b :: escList bs by simp [escList, escChar, hq, hs]]
          at h
        simp only [escList, List.nil_append, List.cons_append, List.cons.injEq] at h
        exact absurd h.1.symm hq
  | a :: as, [], r1, r2, h => by
    exfalso
    by_cases hq : a = '"'
    · rw [show escList (a :: as) = '\\' :: '"' :: escList as by simp [escList, escChar, hq]]
        at h
      simp only [escList, List.nil_append, List.cons_append, List.cons.injEq] at h
      exact absurd h.1 (by decide)
    · by_cases hs : a = '\\'
      · rw [show escList (a :: as) = '\\' :: '\\' :: escList as by
          simp [escList, escChar, hq, hs]] at h
        simp only [escList, List.nil_append, List.cons_append, List.cons.injEq] at h
        exact absurd h.1 (by decide)
      · rw [show escList (a :: as) = a :: escList as by simp [escList, escChar, hq, hs]]
          at h
        simp only [escList, List.nil_append, List.cons_append, List.cons.injEq] at h
        exact absurd h.1 hq
  | a :: as, b :: bs, r1, r2, h => by
    by_cases hqa : a = '"' <;> by_cases hqb : b = '"'
    · rw [show escList (a :: as) = '\\' :: '"' :: escList as by simp [escList, escChar, hqa],
        show escList (b :: bs) = '\\' :: '"' :: escList bs by simp [escList, escChar, hqb]]
        at h
      simp only [List.cons_append, List.cons.injEq] at h
      obtain ⟨he, hr⟩ := esc_boundary as bs r1 r2 h.2.2
      exact ⟨by rw [hqa, hqb, he], hr⟩
    · by_cases hsb : b = '\\'
      · rw [show escList (a :: as) = '\\' :: '"' :: escList as by
            simp [escList, escChar, hqa],
          show escList (b :: bs) = '\\' :: '\\' :: escList bs by
            simp [escList, escChar, hqb, hsb]] at h
        simp only [List.cons_append, List.cons.injEq] at h
        exact absurd h.2.1 (by decide)
      · rw [show escList (a :: as) = '\\' :: '"' :: escList as by
            simp [escList, escChar, hqa],
          show escList (b :: bs) = b :: escList bs by
            simp [escList, escChar, hqb, hsb]] at h
        simp only [List.cons_append, List.cons.injEq] at h
        exact absurd h.1.symm hsb
    · by_cases hsa : a = '\\'
      · rw [show escList (a :: as) = '\\' :: '\\' :: escList as by
            simp [escList, escChar, hqa, hsa],
          show escList (b :: bs) = '\\' :: '"' :: escList bs by
            simp [escList, escChar, hqb]] at h
        simp only [List.cons_append, List.cons.injEq] at h
        exact absurd h.2.1 (by decide)
      · rw [show escList (a :: as) = a :: escList as by
            simp [escList, escChar, hqa, hsa],
          show escList (b :: bs) = '\\' :: '"' :: escList bs by
            simp [escList, escChar, hqb]] at h
        simp only [List.cons_append, List.cons.injEq] at h
        exact absurd h.1 hsa
    · by_cases hsa : a = '\\' <;> by_cases hsb : b = '\\'
      · rw [show escList (a :: as) = '\\' :: '\\' :: escList as by
            simp [escList, escChar, hqa, hsa],
          show escList (b :: bs) = '\\' :: '\\' :: escList bs by
            simp [escList, escChar, hqb, hsb]] at h
        simp only [List.cons_append, List.cons.injEq] at h
        obtain ⟨he, hr⟩ := esc_boundary as bs r1 r2 h.2.2
        exact ⟨by rw [hsa, hsb, he], hr⟩
      · rw [show escList (a :: as) = '\\' :: '\\' :: escList as by
            simp [escList, escChar, hqa, hsa],
          show escList (b :: bs) = b :: escList bs by
            simp [escList, escChar, hqb, hsb]] at h
        simp only [List.cons_append, List.cons.injEq] at h
        exact absurd h.1.symm hsb
      · rw [show escList (a :: as) = a :: escList as by
            simp [escList, escChar, hqa, hsa],
          show escList (b :: bs) = '\\' :: '\\' :: escList bs by
            simp [escList, escChar, hqb, hsb]] at h
        simp only [List.cons_append, List.cons.injEq] at h
        exact absurd h.1 hsa
      · rw [show escList (a :: as) = a :: escList as by
            simp [escList, escChar, hqa, hsa],
          show escList (b :: bs) = b :: escList bs by
            simp [escList, escChar, hqb, hsb]] at h
        simp only [List.cons_append, List.cons.injEq] at h
        obtain ⟨he, hr⟩ := esc_boundary as bs r1 r2 h.2
        exact ⟨by rw [h.1, he], hr⟩

theorem txDumps_data (t : Transaction) :
    (txDumps t).data =
      "\x7b\"amount\": ".data ++ ((intStr t.amount).data
        ++ ',' :: (" \"receiver\": \"".data ++ (escList t.receiver.data
        ++ '"' :: (", \"sender\": \"".data ++ (escList t.sender.data
        ++ '"' :: ['\x7d']))))) := by
  simp [txDumps, jsonStr, String.data_append, List.append_assoc, List.cons_append,
    List.singleton_append, List.nil_append]

theorem intStr_no_comma (i : Int) : ∀ c ∈ (intStr i).data, c ≠ ',' := by
  intro c hc
  rcases intStr_data_ok i c hc with h | h
  · intro he
    rw [he] at h
    exact absurd h (by decide)
  · intro he
    rw [he] at h
    exact absurd h (by decide)

theorem txDumps_inj : Function.Injective txDumps := by
  intro t1 t2 h
  have hd := congrArg String.data h
  rw [txDumps_data, txDumps_data] at hd
  have h1 := List.append_cancel_left hd
  obtain ⟨ha, hr1⟩ := sep_boundary (intStr_no_comma t1.amount) (intStr_no_comma t2.amount) h1
  have hamount : t1.amount = t2.amount := intStr_inj (String.ext ha)
  have h2 := List.append_cancel_left hr1
  obtain ⟨hrcv, hr2⟩ := esc_boundary _ _ _ _ h2
  have hreceiver : t1.receiver = t2.receiver := String.ext hrcv
  have h3 := List.append_cancel_left hr2
  obtain ⟨hsnd, -⟩ := esc_boundary _ _ _ _ h3
  have hsender : t1.sender = t2.sender := String.ext hsnd
  obtain ⟨s1, r1, a1⟩ := t1
  obtain ⟨s2, r2, a2⟩ := t2
  simp_all

theorem strAppend_cancel_left {a b c : String} (h : a ++ b = a ++ c) : b = c := by
  have hd := congrArg String.data h
  rw [String.data_append, String.data_append] at hd
  exact String.ext (List.append_cancel_left hd)

theorem strAppend_cancel_right {a b c : String} (h : a ++ c = b ++ c) : a = b := by
  have hd := congrArg String.data h
  rw [String.data_append, String.data_append] at hd
  exact String.ext (List.append_cancel_right hd)

theorem strAppend_self_inj {a b : String} (h : a ++ a = b ++ b) : a = b := by
  have hd := congrArg String.data h
  rw [String.data_append, String.data_append] at hd
  have hl : a.data.length = b.data.length := by
    have := congrArg List.length hd
    simp only [List.length_append] at this
    omega
  exact String.ext (List.append_inj hd hl).1

theorem pairHash_length (sha : String → String) :
    ∀ l : List String, (pairHash sha l).length = l.length / 2
  | [] => rfl
  | [_] => by simp [pairHash]
  | _ :: _ :: rest => by
    simp only [pairHash, List.length_cons, pairHash_length sha rest]
    omega

theorem padIfOdd_length (l : List String) :
    (padIfOdd l).length = if l.length % 2 ≠ 0 then l.length + 1 else l.length := by
  simp only [padIfOdd]
  split <;> simp

theorem nextLevel_len (sha : String → String) (l : List String) (h2 : 2 ≤ l.length) :
    (pairHash sha (padIfOdd l)).length ≤ l.length - 1 := by
  rw [pairHash_length, padIfOdd_length]
  split <;> omega

theorem merkleLevels_congr (sha : String → String) :
    ∀ (f g : Nat) (l : List String), l.length ≤ f → l.length ≤ g →
      merkleLevels sha f l = merkleLevels sha g l
  | f, g, [], _, _ => by cases f <;> cases g <;> rfl
  | f, g, [x], _, _ => by cases f <;> cases g <;> rfl
  | 0, _, _ :: _ :: _, hf, _ => absurd hf (by simp)
  | _ + 1, 0, _ :: _ :: _, _, hg => absurd hg (by simp)
  | f + 1, g + 1, a :: b :: rest, hf, hg => by
    simp only [merkleLevels]
    have hn := nextLevel_len sha (a :: b :: rest) (by simp only [List.length_cons]; omega)
    simp only [List.length_cons] at hn hf hg
    exact merkleLevels_congr sha f g _ (by omega) (by omega)

theorem merkleReduce_single (sha : String → String) (x : String) :
    merkleReduce sha [x] = x := rfl

theorem merkleReduce_step (sha : String → String) (l : List String) (h2 : 2 ≤ l.length) :
    merkleReduce sha l = merkleReduce sha (pairHash sha (padIfOdd l)) := by
  match l, h2 with
  | a :: b :: rest, _ =>
    show merkleLevels sha (rest.length + 1 + 1) (a :: b :: rest) = _
    simp only [merkleLevels]
    have hn := nextLevel_len sha (a :: b :: rest) (by simp only [List.length_cons]; omega)
    simp only [List.length_cons] at hn
    exact merkleLevels_congr sha (rest.length + 1) _ _ (by omega) (by omega)

theorem getLast!_concat (l : List String) (a : String) : (l ++ [a]).getLast! = a := by
  induction l with
  | nil => rfl
  | cons x xs ih =>
    rw [List.cons_append]
    cases hxs : xs ++ [a] with
    | nil => simp at hxs
    | cons y ys =>
      show (x :: y :: ys).getLast! = a
      rw [show (x :: y :: ys).getLast! = (y :: ys).getLast! from rfl, ← hxs, ih]

theorem pairHash_append (sha : String → String) :
    ∀ (pre l : List String), pre.length % 2 = 0 →
      pairHash sha (pre ++ l) = pairHash sha pre ++ pairHash sha l
  | [], l, _ => by simp [pairHash]
  | [_], _, h => absurd h (by simp)
  | a :: b :: pre, l, h => by
    simp only [List.cons_append, pairHash]
    exact congrArg (fun z => sha (a ++ b) :: z) (pairHash_append sha pre l (by simp only [List.length_cons] at h; omega))

theorem pairHash_diff (sha : String → String) (hinj : Function.Injective sha)
    (pre post : List String) (x x' : String) (hxx : x ≠ x')
    (heven : (pre ++ x :: post).length % 2 = 0) :
    ∃ pre2 y y' post2,
      pairHash sha (pre ++ x :: post) = pre2 ++ y :: post2 ∧
      pairHash sha (pre ++ x' :: post) = pre2 ++ y' :: post2 ∧
      y ≠ y' := by
  by_cases hp : pre.length % 2 = 0
  · have hpost : post ≠ [] := by
      intro h
      subst h
      simp only [List.length_append, List.length_cons, List.length_nil] at heven
      omega
    obtain ⟨p0, post', rfl⟩ := List.exists_cons_of_ne_nil hpost
    refine ⟨pairHash sha pre, sha (x ++ p0), sha (x' ++ p0), pairHash sha post', ?_, ?_, ?_⟩
    · rw [pairHash_append sha pre _ hp]
      simp [pairHash]
    · rw [pairHash_append sha pre _ hp]
      simp [pairHash]
    · intro hy
      exact hxx (strAppend_cancel_right (hinj hy))
  · rcases List.eq_nil_or_concat pre with rfl | ⟨pre0, a, hpre⟩
    · simp at hp
    · rw [List.concat_eq_append] at hpre
      subst hpre
      have hp0 : pre0.length % 2 = 0 := by
        simp only [List.length_append, List.length_cons, List.length_nil] at hp
        omega
      refine ⟨pairHash sha pre0, sha (a ++ x), sha (a ++ x'), pairHash sha post, ?_, ?_, ?_⟩
      · rw [show (pre0 ++ [a]) ++ x :: post = pre0 ++ (a :: x :: post) by simp]
        rw [pairHash_append sha pre0 _ hp0]
        simp [pairHash]
      · rw [show (pre0 ++ [a]) ++ x' :: post = pre0 ++ (a :: x' :: post) by simp]
        rw [pairHash_append sha pre0 _ hp0]
        simp [pairHash]
      · intro hy
        exact hxx (strAppend_cancel_left (hinj hy))

theorem merkleReduce_diff (sha : String → String) (hinj : Function.Injective sha) :
    ∀ (n : Nat) (pre post : List String) (x x' : String),
      (pre ++ x :: post).length ≤ n → x ≠ x' →
      merkleReduce sha (pre ++ x :: post) ≠ merkleReduce sha (pre ++ x' :: post)
  | 0, pre, post, x, x', hn, _ => absurd hn (by simp)
  | n + 1, pre, post, x, x', hn, hxx => by
    by_cases hbase : pre = [] ∧ post = []
    · obtain ⟨rfl, rfl⟩ := hbase
      simpa [merkleReduce_single] using hxx
    · have h2 : 2 ≤ (pre ++ x :: post).length := by
        rcases pre with _ | ⟨p, pre⟩
        · rcases post with _ | ⟨q, post⟩
          · exact absurd ⟨rfl, rfl⟩ hbase
          · simp only [List.length_append, List.length_cons, List.nil_append]
            omega
        · simp only [List.length_append, List.length_cons]
          omega
      have h2' : 2 ≤ (pre ++ x' :: post).length := by
        simpa only [List.length_append, List.length_cons] using h2
      rw [merkleReduce_step sha _ h2, merkleReduce_step sha _ h2']
      by_cases heven : (pre ++ x :: post).length % 2 = 0
      · have heven' : (pre ++ x' :: post).length % 2 = 0 := by
          simpa only [List.length_append, List.length_cons] using heven
        rw [show padIfOdd (pre ++ x :: post) = pre ++ x :: post by
            unfold padIfOdd
            rw [if_neg (by simp only [ne_eq, Decidable.not_not]; exact heven)],
          show padIfOdd (pre ++ x' :: post) = pre ++ x' :: post by
            unfold padIfOdd
            rw [if_neg (by simp only [ne_eq, Decidable.not_not]; exact heven')]]
        obtain ⟨pre2, y, y', post2, he1, he2, hyy⟩ :=
          pairHash_diff sha hinj pre post x x' hxx heven
        rw [he1, he2]
        refine merkleReduce_diff sha hinj n pre2 post2 y y' ?_ hyy
        have hlen := congrArg List.length he1
        rw [pairHash_length] at hlen
        simp only [List.length_append, List.length_cons] at hlen hn h2 ⊢
        omega
      · rcases List.eq_nil_or_concat post with rfl | ⟨post0, z, hpz⟩
        · have hpre_even : pre.length % 2 = 0 := by
            simp only [List.length_append, List.length_cons, List.length_nil] at heven
            omega
          have hlx : (pre ++ [x]).getLast! = x := getLast!_concat pre x
          have hlx' : (pre ++ [x']).getLast! = x' := getLast!_concat pre x'
          have hodd : (pre ++ [x]).length % 2 ≠ 0 := heven
          have hodd' : (pre ++ [x']).length % 2 ≠ 0 := by
            simpa only [List.length_append, List.length_cons] using hodd
          rw [show padIfOdd (pre ++ [x]) = pre ++ [x, x] by
              simp only [padIfOdd, if_pos hodd, hlx, List.append_assoc]
              rfl,
            show padIfOdd (pre ++ [x']) = pre ++ [x', x'] by
              simp only [padIfOdd, if_pos hodd', hlx', List.append_assoc]
              rfl]
          rw [pairHash_append sha pre _ hpre_even, pairHash_append sha pre _ hpre_even]
          rw [show pairHash sha [x, x] = [sha (x ++ x)] from rfl,
            show pairHash sha [x', x'] = [sha (x' ++ x')] from rfl]
          refine merkleReduce_diff sha hinj n (pairHash sha pre) [] (sha (x ++ x))
            (sha (x' ++ x')) ?_ ?_
          · have hpre1 : pre ≠ [] := fun h => hbase ⟨h, rfl⟩
            have hplen : 0 < pre.length := List.length_pos.mpr hpre1
            rw [List.length_append, pairHash_length]
            simp only [List.length_append, List.length_cons, List.length_nil] at hn
            simp only [List.length_cons, List.length_nil]
            omega
          · intro hy
            exact hxx (strAppend_self_inj (hinj hy))
        · rw [List.concat_eq_append] at hpz
          subst hpz
          have hlast : (pre ++ x :: (post0 ++ [z])).getLast! = z := by
            rw [show pre ++ x :: (post0 ++ [z]) = (pre ++ x :: post0) ++ [z] by simp]
            exact getLast!_concat _ z
          have hlast' : (pre ++ x' :: (post0 ++ [z])).getLast! = z := by
            rw [show pre ++ x' :: (post0 ++ [z]) = (pre ++ x' :: post0) ++ [z] by simp]
            exact getLast!_concat _ z
          have hodd' : (pre ++ x' :: (post0 ++ [z])).length % 2 ≠ 0 := by
            simpa only [List.length_append, List.length_cons] using heven
          rw [show padIfOdd (pre ++ x :: (post0 ++ [z]))
                = pre ++ x :: (post0 ++ [z] ++ [z]) by
              simp only [padIfOdd, if_pos heven, hlast, List.append_assoc, List.cons_append],
            show padIfOdd (pre ++ x' :: (post0 ++ [z]))
                = pre ++ x' :: (post0 ++ [z] ++ [z]) by
              simp only [padIfOdd, if_pos hodd', hlast', List.append_assoc, List.cons_append]]
          have hev2 : (pre ++ x :: (post0 ++ [z] ++ [z])).length % 2 = 0 := by
            simp only [List.length_append, List.length_cons, List.length_nil] at heven ⊢
            omega
          obtain ⟨pre2, y, y', post2, he1, he2, hyy⟩ :=
            pairHash_diff sha hinj pre (post0 ++ [z] ++ [z]) x x' hxx hev2
          rw [he1, he2]
          refine merkleReduce_diff sha hinj n pre2 post2 y y' ?_ hyy
          have hlen := congrArg List.length he1
          rw [pairHash_length] at hlen
          simp only [List.length_append, List.length_cons, List.length_nil] at hlen hn ⊢
          omega

theorem get_merkle_root_cons (sha : String → String) (t : Transaction)
    (txs : List Transaction) :
    get_merkle_root sha (t :: txs) = merkleReduce sha ((t :: txs).map txDumps) := rfl

theorem get_merkle_root_diff (sha : String → String) (hinj : Function.Injective sha)
    (pre post : List Transaction) (t t' : Transaction) (htt : t' ≠ t) :
    get_merkle_root sha (pre ++ t' :: post) ≠ get_merkle_root sha (pre ++ t :: post) := by
  have h1 : get_merkle_root sha (pre ++ t' :: post)
      = merkleReduce sha (pre.map txDumps ++ txDumps t' :: post.map txDumps) := by
    cases pre with
    | nil => simp [get_merkle_root_cons]
    | cons p pre => rw [List.cons_append, get_merkle_root_cons]; simp
  have h2 : get_merkle_root sha (pre ++ t :: post)
      = merkleReduce sha (pre.map txDumps ++ txDumps t :: post.map txDumps) := by
    cases pre with
    | nil => simp [get_merkle_root_cons]
    | cons p pre => rw [List.cons_append, get_merkle_root_cons]; simp
  rw [h1, h2]
  exact merkleReduce_diff sha hinj
    (pre.map txDumps ++ txDumps t' :: post.map txDumps).length
    (pre.map txDumps) (post.map txDumps) (txDumps t') (txDumps t)
    (le_refl _) (fun he => htt (txDumps_inj he))

theorem validFrom_cons (sha : String → String) (prev b : Block) (rest : List Block) :
    validFrom sha prev (b :: rest) = true ↔
      blockConds sha prev.block_hash b ∧ validFrom sha b rest = true := by
  simp only [validFrom, blockConds]
  split_ifs with h1 h2 h3 h4 <;> simp_all

theorem is_chain_valid_cons (sha : String → String) (first : Block) (rest : List Block) :
    is_chain_valid sha (first :: rest) = true ↔
      blockConds sha "0" first ∧ validFrom sha first rest = true := by
  simp only [is_chain_valid, blockConds]
  split_ifs with h1 h2 h3 h4 <;> simp_all

theorem validFrom_iff (sha : String → String) :
    ∀ (rest : List Block) (prev : Block),
      validFrom sha prev rest = true ↔
        ∀ i, i < rest.length →
          blockConds sha
            (if i = 0 then prev.block_hash else (rest.getD (i - 1) default).block_hash)
            (rest.getD i default)
  | [], prev => by simp [validFrom]
  | b :: rest, prev => by
    rw [validFrom_cons, validFrom_iff sha rest b]
    constructor
    · rintro ⟨hb, hrest⟩ i hi
      match i with
      | 0 => simpa [List.getD_cons_zero] using hb
      | i + 1 =>
        have hlt : i < rest.length := by
          simpa using Nat.lt_of_succ_lt_succ (by simpa using hi)
        have hr := hrest i hlt
        match i with
        | 0 => simpa [List.getD_cons_zero, List.getD_cons_succ] using hr
        | j + 1 => simpa [List.getD_cons_succ] using hr
    · intro h
      refine ⟨by simpa [List.getD_cons_zero] using h 0 (by simp), ?_⟩
      intro i hi
      have hr := h (i + 1) (by simpa using Nat.succ_lt_succ hi)
      match i with
      | 0 => simpa [List.getD_cons_zero, List.getD_cons_succ] using hr
      | j + 1 => simpa [List.getD_cons_succ] using hr

theorem is_chain_valid_iff_spec (sha : String → String) (chain : List Block) :
    is_chain_valid sha chain = true ↔ chainValidSpec sha chain := by
  cases chain with
  | nil => simp [is_chain_valid, chainValidSpec]
  | cons first rest =>
    rw [is_chain_valid_cons, validFrom_iff]
    unfold chainValidSpec
    constructor
    · rintro ⟨hb, hrest⟩ i hi
      match i with
      | 0 => simpa [expectedPrev, List.getD_cons_zero] using hb
      | i + 1 =>
        have hlt : i < rest.length := by
          simpa using Nat.lt_of_succ_lt_succ (by simpa using hi)
        have hr := hrest i hlt
        match i with
        | 0 => simpa [expectedPrev, List.getD_cons_zero, List.getD_cons_succ] using hr
        | j + 1 => simpa [expectedPrev, List.getD_cons_succ] using hr
    · intro h
      refine ⟨by simpa [expectedPrev, List.getD_cons_zero] using h 0 (by simp), ?_⟩
      intro i hi
      have hr := h (i + 1) (by simpa using Nat.succ_lt_succ hi)
      match i with
      | 0 => simpa [expectedPrev, List.getD_cons_zero, List.getD_cons_succ] using hr
      | j + 1 => simpa [expectedPrev, List.getD_cons_succ] using hr

theorem lastBlockHash_cons_cons (a b : Block) (l : List Block) :
    lastBlockHash (a :: b :: l) = lastBlockHash (b :: l) := by
  simp [lastBlockHash, List.getLast?_cons_cons]

theorem validFrom_append (sha : String → String) :
    ∀ (rest : List Block) (prev b : Block),
      validFrom sha prev rest = true →
      blockConds sha (lastBlockHash (prev :: rest)) b →
      validFrom sha prev (rest ++ [b]) = true
  | [], prev, b => by
    intro _ hb
    rw [List.nil_append, validFrom_cons]
    refine ⟨?_, rfl⟩
    simpa [lastBlockHash, List.getLast?] using hb
  | c :: rest, prev, b => by
    intro h hb
    rw [validFrom_cons] at h
    rw [List.cons_append, validFrom_cons]
    refine ⟨h.1, ?_⟩
    exact validFrom_append sha rest c b h.2 (by rwa [lastBlockHash_cons_cons] at hb)

theorem is_chain_valid_append (sha : String → String) (chain : List Block) (b : Block)
    (hc : is_chain_valid sha chain = true)
    (hb : blockConds sha (lastBlockHash chain) b) :
    is_chain_valid sha (chain ++ [b]) = true := by
  cases chain with
  | nil =>
    rw [List.nil_append, is_chain_valid_cons]
    refine ⟨?_, rfl⟩
    simpa [lastBlockHash, List.getLast?] using hb
  | cons first rest =>
    rw [is_chain_valid_cons] at hc
    rw [List.cons_append, is_chain_valid_cons]
    exact ⟨hc.1, validFrom_append sha rest first b hc.2 hb⟩

theorem powAux_finds (check : Nat → Bool) :
    ∀ (k n : Nat), check (n + k) = true → (∀ m, m < k → check (n + m) = false) →
      powAux check (k + 1) n = some (n + k)
  | 0, n, hc, _ => by simpa [powAux] using hc
  | k + 1, n, hc, hmin => by
    have h0 : check n = false := by simpa using hmin 0 (by omega)
    rw [show powAux check (k + 1 + 1) n = powAux check (k + 1) (n + 1) by
      simp [powAux, h0]]
    rw [powAux_finds check k (n + 1) (by rw [show n + 1 + k = n + (k + 1) by omega]; exact hc)
      (fun m hm => by rw [show n + 1 + m = n + (m + 1) by omega]; exact hmin (m + 1) (by omega))]
    rw [show n + 1 + k = n + (k + 1) by omega]

theorem add_transaction_chain (s : NodeState) (sender receiver : String) (amount : Int) :
    (add_transaction s sender receiver amount).1.chain = s.chain := by
  cases hgl : s.chain.getLast? <;> simp [add_transaction, hgl]

theorem add_transaction_fst (s : NodeState) (sender receiver : String) (amount : Int) :
    (add_transaction s sender receiver amount).1
      = { s with transactions :=
            s.transactions ++ [{ sender := sender, receiver := receiver, amount := amount }] } := by
  cases hgl : s.chain.getLast? <;> simp [add_transaction, hgl]

theorem mined_blockConds (sha : String → String) (chain : List Block) (ts : String)
    (txs : List Transaction) (P : Nat)
    (hps : powCheck sha (chain.length + 1) ts (lastBlockHash chain)
      (get_merkle_root sha txs) txs P = true) :
    blockConds sha (lastBlockHash chain)
      { index := chain.length + 1, timestamp := ts, proof := P,
        previous_hash := lastBlockHash chain, merkle_root := get_merkle_root sha txs,
        transactions := txs,
        block_hash := sha (powData P (chain.length + 1) ts (lastBlockHash chain)
          (get_merkle_root sha txs) txs) } := by
  refine ⟨rfl, rfl, ?_, rfl⟩
  simp only [powCheck, decide_eq_true_eq] at hps
  simpa [compute_block_hash] using hps

theorem mine_node_valid (sha : String → String) (node_address timestamp : String)
    (s : NodeState) (h : _) (hv : is_chain_valid sha s.chain = true) :
    is_chain_valid sha (mine_block_node sha node_address timestamp s h).1.chain = true := by
  by_cases hlt : s.transactions.length < 1
  · simp only [mine_block_node, dif_pos hlt]
    exact hv
  · have hne : s.transactions ≠ [] := by
      intro hnil
      rw [hnil] at hlt
      simp at hlt
    simp only [mine_block_node, dif_neg hlt, add_transaction_fst, create_block]
    exact is_chain_valid_append sha s.chain _ hv
      (mined_blockConds sha s.chain timestamp (List.take 5 s.transactions) _
        (Nat.find_spec (h hne)))

theorem mine_api_valid (sha : String → String) (timestamp : String)
    (s : NodeState) (h : _) (hv : is_chain_valid sha s.chain = true) :
    is_chain_valid sha (mine_block_api sha timestamp s h).1.chain = true := by
  by_cases hlt : s.transactions.length < 5
  · simp only [mine_block_api, dif_pos hlt]
    exact hv
  · have h5 : 5 ≤ s.transactions.length := by omega
    simp only [mine_block_api, dif_neg hlt, create_block_api]
    exact is_chain_valid_append sha s.chain _ hv
      (mined_blockConds sha s.chain timestamp (List.take 5 s.transactions) _
        (Nat.find_spec (h h5)))

theorem reachable_valid (sha : String → String) (s : NodeState)
    (hr : Reachable sha s) : is_chain_valid sha s.chain = true := by
  induction hr with
  | init => rfl
  | addTx s sender receiver amount _ ih => rwa [add_transaction_chain]
  | mineNode s node_address timestamp h _ ih => exact mine_node_valid sha node_address timestamp s h ih
  | mineApi s timestamp h _ ih => exact mine_api_valid sha timestamp s h ih

theorem removeFirst_sublist (tx : Transaction) :
    ∀ l : List Transaction, (removeFirst tx l).Sublist l
  | [] => List.Sublist.refl _
  | t :: rest => by
    simp only [removeFirst]
    split
    · exact List.sublist_cons_self t rest
    · exact List.Sublist.cons₂ t (removeFirst_sublist tx rest)

theorem removeAll_sublist : ∀ (txs m : List Transaction), (removeAll txs m).Sublist m
  | [], m => List.Sublist.refl m
  | tx :: txs, m => by
    simp only [removeAll, List.foldl_cons]
    have step : (if tx ∈ m then removeFirst tx m else m).Sublist m := by
      split
      · exact removeFirst_sublist tx m
      · exact List.Sublist.refl m
    exact (removeAll_sublist txs _).trans step

theorem removeFirst_of_not_mem (tx : Transaction) :
    ∀ m : List Transaction, tx ∉ m → removeFirst tx m = m
  | [], _ => rfl
  | t :: rest, h => by
    have ht : t ≠ tx := fun he => h (by simp [he])
    simp only [removeFirst, if_neg ht]
    rw [removeFirst_of_not_mem tx rest (fun hm => h (by simp [hm]))]

theorem count_removeFirst (tx v : Transaction) :
    ∀ m : List Transaction, tx ∈ m →
      (removeFirst tx m).count v = m.count v - (if v = tx then 1 else 0)
  | [], h => absurd h (by simp)
  | t :: rest, hmem => by
    simp only [removeFirst]
    by_cases ht : t = tx
    · rw [if_pos ht]
      subst ht
      by_cases hv : v = t
      · subst hv
        simp [List.count_cons]
      · have hv' : ¬ t = v := fun he => hv he.symm
        simp [List.count_cons, beq_iff_eq, hv, hv']
    · rw [if_neg ht]
      have hmem' : tx ∈ rest := by
        rcases List.mem_cons.1 hmem with h | h
        · exact absurd h.symm ht
        · exact h
      have hc := count_removeFirst tx v rest hmem'
      have hpos : 0 < rest.count tx := List.count_pos_iff.mpr hmem'
      by_cases hvt : t = v
      · subst hvt
        simp only [List.count_cons, beq_iff_eq, hc, if_neg ht]
        simp
      · simp [List.count_cons, beq_iff_eq, hc, hvt]

theorem removeAll_count (v : Transaction) :
    ∀ (txs m : List Transaction),
      (removeAll txs m).count v = m.count v - min (txs.count v) (m.count v)
  | [], m => by simp [removeAll]
  | tx :: txs, m => by
    simp only [removeAll, List.foldl_cons]
    by_cases hm : tx ∈ m
    · rw [if_pos hm]
      rw [show List.foldl (fun m tx => if tx ∈ m then removeFirst tx m else m)
            (removeFirst tx m) txs = removeAll txs (removeFirst tx m) from rfl]
      rw [removeAll_count v txs (removeFirst tx m), count_removeFirst tx v m hm]
      have hpos : 0 < m.count tx := List.count_pos_iff.mpr hm
      by_cases hv : v = tx
      · subst hv
        simp only [List.count_cons, beq_iff_eq, if_pos rfl]
        omega
      · have hv' : ¬ tx = v := fun he => hv he.symm
        simp only [List.count_cons, beq_iff_eq, if_neg hv, if_neg hv']
        omega
    · rw [if_neg hm]
      rw [show List.foldl (fun m tx => if tx ∈ m then removeFirst tx m else m) m txs
            = removeAll txs m from rfl]
      rw [removeAll_count v txs m]
      by_cases hv : v = tx
      · subst hv
        have hz : m.count v = 0 := List.count_eq_zero.mpr hm
        simp only [List.count_cons, beq_iff_eq, if_pos rfl, hz]
        omega
      · have hv' : ¬ tx = v := fun he => hv he.symm
        simp only [List.count_cons, beq_iff_eq, if_neg hv']
        omega

theorem replaceLoop_eq_foldl (sha : String → String) :
    ∀ (rs : List PeerResponse) (acc : Nat × Option (List Block)),
      replaceLoop sha acc rs = rs.foldl
        (fun acc r =>
          match r with
          | none => acc
          | some (length, chain) =>
            if acc.1 < length ∧ is_chain_valid sha chain = true then (length, some chain)
            else acc)
        acc
  | [], _ => rfl
  | none :: rest, acc => by
    simp only [replaceLoop, List.foldl_cons]
    exact replaceLoop_eq_foldl sha rest acc
  | some (length, chain) :: rest, acc => by
    simp only [replaceLoop, List.foldl_cons]
    split
    · rename_i hcond
      rw [replaceLoop_eq_foldl sha rest _]
    · rename_i hcond
      rw [replaceLoop_eq_foldl sha rest _]

theorem powData_timestamp_inj {p idx : Nat} {ts ts' ph mr : String}
    {txs : List Transaction}
    (h : powData p idx ts ph mr txs = powData p idx ts' ph mr txs) : ts = ts' := by
  unfold powData at h
  exact strAppend_cancel_left
    (strAppend_cancel_right (strAppend_cancel_right (strAppend_cancel_right h)))

theorem powData_proof_inj {p p' idx : Nat} {ts ph mr : String}
    {txs : List Transaction}
    (h : powData p idx ts ph mr txs = powData p' idx ts ph mr txs) : p = p' := by
  unfold powData at h
  have h1 := strAppend_cancel_right
    (strAppend_cancel_right (strAppend_cancel_right (strAppend_cancel_right h)))
  exact natStr_inj (strAppend_cancel_right h1)

theorem set_getD_self (chain : List Block) (i : Nat) (b : Block) (hi : i < chain.length) :
    (chain.set i b).getD i default = b := by
  simp [List.getD_eq_getElem?_getD, List.getElem?_set_self, hi]

theorem set_getD_ne (chain : List Block) (i j : Nat) (b : Block) (hne : i ≠ j) :
    (chain.set i b).getD j default = chain.getD j default := by
  simp [List.getD_eq_getElem?_getD, List.getElem?_set_ne hne]

theorem expectedPrev_set (chain : List Block) (i : Nat) (b : Block) :
    expectedPrev (chain.set i b) i = expectedPrev chain i := by
  unfold expectedPrev
  split
  · rfl
  · rename_i h0
    rw [set_getD_ne chain i (i - 1) b (by omega)]

theorem mutation_invalid (sha : String → String) (hinj : Function.Injective sha)
    (chain : List Block) (hv : is_chain_valid sha chain = true)
    (i : Nat) (hi : i < chain.length) (b' : Block)
    (hm : MutatedBlock (chain.getD i default) b') :
    is_chain_valid sha (chain.set i b') = false := by
  have hval' : is_chain_valid sha (chain.set i b') = true ∨
      is_chain_valid sha (chain.set i b') = false := by
    cases is_chain_valid sha (chain.set i b') <;> simp
  rcases hval' with hval' | hval'
  swap
  · exact hval'
  exfalso
  have hspec := (is_chain_valid_iff_spec sha chain).1 hv
  have hspec' := (is_chain_valid_iff_spec sha _).1 hval'
  have hci := hspec i hi
  have hci' := hspec' i (by simpa using hi)
  rw [set_getD_self chain i b' hi, expectedPrev_set chain i b'] at hci'
  obtain ⟨hp1, hm1, hd1, hb1⟩ := hci
  obtain ⟨hp2, hm2, hd2, hb2⟩ := hci'
  cases hm with
  | timestamp v hne =>
    exact hne (powData_timestamp_inj (hinj (hb2.symm.trans hb1)))
  | proof v hne =>
    exact hne (powData_proof_inj (hinj (hb2.symm.trans hb1)))
  | previous_hash v hne =>
    exact hne (hp2.trans hp1.symm)
  | merkle_root v hne =>
    exact hne (hm2.symm.trans hm1)
  | transaction pre t t' post hbtx htt =>
    rw [hbtx] at hm1
    exact get_merkle_root_diff sha hinj pre post t t' htt (hm2.trans hm1.symm)
  | block_hash v hne =>
    exact hne (hb2.trans hb1.symm)

theorem sha0_inj : Function.Injective sha0 := by
  intro a b h
  have hd := congrArg String.data h
  simp only [sha0, String.data_append] at hd
  exact String.ext (List.append_cancel_left hd)

/-- C1: for every chain built exclusively through the mining pipeline —
starting from the freshly constructed blockchain and repeatedly submitting
transactions and invoking the `mine_block` handlers (which take a batch of
pending transactions, compute its Merkle root, choose `'0'` or the last
block's stored hash as previous hash, set `index = len(chain) + 1`, obtain a
nonce from `proof_of_work`, hash the assembled fields into `block_hash`, and
append via `create_block`) — `is_chain_valid` accepts the resulting chain. -/
theorem C1_pipeline_chains_valid (sha : String → String) (s : NodeState)
    (hr : Reachable sha s) : is_chain_valid sha s.chain = true :=
  reachable_valid sha s hr

set_option maxRecDepth 10000 in
theorem C1_witness :
    is_chain_valid sha0
      (mine_block_node sha0 "N" "t"
        (add_transaction ⟨[], [], []⟩ "Alice" "Bob" 50).1
        (fun _ => ⟨0, by decide⟩)).1.chain = true :=
  C1_pipeline_chains_valid sha0 _
    (Reachable.mineNode _ "N" "t" (fun _ => ⟨0, by decide⟩)
      (Reachable.addTx _ "Alice" "Bob" 50 Reachable.init))

/-- C2: `is_chain_valid` accepts the empty chain, and accepts a chain exactly
when block 1 carries the genesis sentinel `'0'` as `previous_hash`, every
block's recomputed Merkle root equals its stored `merkle_root`, every block's
re-derived hash starts with three `'0'` digits and equals its stored
`block_hash`, and every block after the first links to its predecessor's
stored `block_hash`. -/
theorem C2_validator_characterization (sha : String → String) :
    is_chain_valid sha [] = true ∧
    ∀ chain : List Block, is_chain_valid sha chain = true ↔ chainValidSpec sha chain :=
  ⟨rfl, fun chain => is_chain_valid_iff_spec sha chain⟩

theorem C2_witness : is_chain_valid sha0 [] = true :=
  (C2_validator_characterization sha0).1

/-- C3: `get_merkle_root` returns the sentinel `'0'` on the empty transaction
list; on a non-empty list it reduces the level of canonically serialized
transactions (the serialized strings themselves, unhashed); the reduction
keeps a single value as is, and while more than one value remains it
duplicates the last value when the level's count is odd and replaces the
level by the digests of the concatenated adjacent pairs; identical
transaction lists yield identical roots. -/
theorem C3_merkle_root_characterization (sha : String → String) :
    get_merkle_root sha [] = "0" ∧
    (∀ txs : List Transaction, txs ≠ [] →
      get_merkle_root sha txs = merkleReduce sha (txs.map txDumps)) ∧
    (∀ x : String, merkleReduce sha [x] = x) ∧
    (∀ l : List String, 2 ≤ l.length →
      merkleReduce sha l = merkleReduce sha (pairHash sha (padIfOdd l))) ∧
    (∀ l : List String, l.length % 2 ≠ 0 → padIfOdd l = l ++ [l.getLast!]) ∧
    (∀ l : List String, l.length % 2 = 0 → padIfOdd l = l) ∧
    (∀ (a b : String) (rest : List String),
      pairHash sha (a :: b :: rest) = sha (a ++ b) :: pairHash sha rest) ∧
    (∀ txs1 txs2 : List Transaction, txs1 = txs2 →
      get_merkle_root sha txs1 = get_merkle_root sha txs2) := by
  refine ⟨rfl, ?_, merkleReduce_single sha, merkleReduce_step sha, ?_, ?_, ?_, ?_⟩
  · intro txs hne
    cases txs with
    | nil => exact absurd rfl hne
    | cons t rest => rfl
  · intro l hodd
    simp [padIfOdd, hodd]
  · intro l heven
    simp [padIfOdd, heven]
  · intro a b rest
    rfl
  · intro txs1 txs2 h
    rw [h]

theorem C3_witness :
    get_merkle_root sha0 [{ sender := "Alice", receiver := "Bob", amount := 50 }]
      = merkleReduce sha0
          (List.map txDumps [{ sender := "Alice", receiver := "Bob", amount := 50 }]) :=
  (C3_merkle_root_characterization sha0).2.1
    [{ sender := "Alice", receiver := "Bob", amount := 50 }] (by simp)

/-- C4: whenever some nonce makes the digest of the assembled proof-of-work
string start with `'000'`, `proof_of_work` returns the smallest such
non-negative nonce: the returned nonce passes the check (so its re-derived
hash has the required prefix), every smaller nonce fails the check, and the
ascending search loop started at nonce 0 stops exactly there. -/
theorem C4_proof_of_work_least (sha : String → String) (block_index : Nat)
    (timestamp previous_hash merkle_root : String) (transactions : List Transaction)
    (h : ∃ n, powCheck sha block_index timestamp previous_hash merkle_root transactions n
      = true) :
    powCheck sha block_index timestamp previous_hash merkle_root transactions
      (proof_of_work sha block_index timestamp previous_hash merkle_root transactions h)
      = true ∧
    (∀ m, m < proof_of_work sha block_index timestamp previous_hash merkle_root
        transactions h →
      powCheck sha block_index timestamp previous_hash merkle_root transactions m
        = false) ∧
    (sha (powData
        (proof_of_work sha block_index timestamp previous_hash merkle_root transactions h)
        block_index timestamp previous_hash merkle_root transactions)).take 3 = "000" ∧
    powAux (powCheck sha block_index timestamp previous_hash merkle_root transactions)
        (proof_of_work sha block_index timestamp previous_hash merkle_root transactions h
          + 1) 0
      = some (proof_of_work sha block_index timestamp previous_hash merkle_root
          transactions h) := by
  refine ⟨Nat.find_spec h, ?_, ?_, ?_⟩
  · intro m hm
    have hmin := Nat.find_min h hm
    simpa using hmin
  · have h1 : powCheck sha block_index timestamp previous_hash merkle_root transactions
        (proof_of_work sha block_index timestamp previous_hash merkle_root transactions h)
        = true := Nat.find_spec h
    simp only [powCheck, decide_eq_true_eq] at h1
    exact h1
  · have h1 : powCheck sha block_index timestamp previous_hash merkle_root transactions
        (proof_of_work sha block_index timestamp previous_hash merkle_root transactions h)
        = true := Nat.find_spec h
    have hmin : ∀ m, m < proof_of_work sha block_index timestamp previous_hash merkle_root
        transactions h →
        powCheck sha block_index timestamp previous_hash merkle_root transactions m
          = false := fun m hm => by simpa using Nat.find_min h hm
    have hfind := powAux_finds
      (powCheck sha block_index timestamp previous_hash merkle_root transactions)
      (proof_of_work sha block_index timestamp previous_hash merkle_root transactions h) 0
      (by simpa using h1) (fun m hm => by simpa using hmin m (by simpa using hm))
    simpa using hfind

theorem C4_witness :
    (∃ n, powCheck sha0 1 "t" "0" "0" [] n = true) ∧
    powAux (powCheck sha0 1 "t" "0" "0" [])
        (proof_of_work sha0 1 "t" "0" "0" [] ⟨0, by decide⟩ + 1) 0
      = some (proof_of_work sha0 1 "t" "0" "0" [] ⟨0, by decide⟩) :=
  ⟨⟨0, by decide⟩, (C4_proof_of_work_least sha0 1 "t" "0" "0" [] ⟨0, by decide⟩).2.2.2⟩

/-- C5 counterexample: with a non-empty local chain and a single peer
reporting length 5 together with the empty (vacuously valid) chain, the
surviving candidate is the empty list — which differs from the original
local chain — yet `replace_chain` leaves the chain untouched and returns
false, because the final decision is Python truthiness of `longest_chain`,
not a comparison with the original chain. -/
theorem C5_counterexample :
    (replaceLoop sha0 ((⟨[wBlock], [], []⟩ : NodeState).chain.length, none)
        [some (5, [])]).2 = some [] ∧
    ([] : List Block) ≠ (⟨[wBlock], [], []⟩ : NodeState).chain ∧
    replace_chain sha0 ⟨[wBlock], [], []⟩ [some (5, [])]
      = (⟨[wBlock], [], []⟩, false) := by
  refine ⟨by decide, by decide, by decide⟩

/-- C5 amended: a peer's reported chain becomes the running winner exactly
when its reported length is strictly greater than the running maximum and
the validator accepts it (an unreachable peer is skipped; equal length never
wins); after scanning all peers, if some peer ever became the winner and the
winning chain is non-empty, the local chain is replaced by it and true is
returned — even when the winner coincides with the original local chain —
otherwise (no winner, or an empty winner) the chain is left untouched and
false is returned. -/
theorem C5_replace_chain_behaviour (sha : String → String) (s : NodeState)
    (rs : List PeerResponse) :
    (∀ (acc : Nat × Option (List Block)) (rest : List PeerResponse),
      replaceLoop sha acc (none :: rest) = replaceLoop sha acc rest) ∧
    (∀ (acc : Nat × Option (List Block)) (length : Nat) (chain : List Block)
        (rest : List PeerResponse),
      (acc.1 < length ∧ is_chain_valid sha chain = true →
        replaceLoop sha acc (some (length, chain) :: rest)
          = replaceLoop sha (length, some chain) rest) ∧
      (¬ (acc.1 < length ∧ is_chain_valid sha chain = true) →
        replaceLoop sha acc (some (length, chain) :: rest)
          = replaceLoop sha acc rest)) ∧
    replaceLoop sha (s.chain.length, none) rs = winnerOf sha s.chain.length rs ∧
    (∀ c : List Block, (winnerOf sha s.chain.length rs).2 = some c → c ≠ [] →
      replace_chain sha s rs = ({ s with chain := c }, true)) ∧
    ((winnerOf sha s.chain.length rs).2 = none → replace_chain sha s rs = (s, false)) ∧
    ((winnerOf sha s.chain.length rs).2 = some [] →
      replace_chain sha s rs = (s, false)) := by
  have hw : replaceLoop sha (s.chain.length, none) rs = winnerOf sha s.chain.length rs :=
    replaceLoop_eq_foldl sha rs (s.chain.length, none)
  refine ⟨?_, ?_, hw, ?_, ?_, ?_⟩
  · intro acc rest
    rfl
  · intro acc length chain rest
    constructor
    · intro hcond
      simp only [replaceLoop, if_pos hcond]
    · intro hcond
      simp only [replaceLoop, if_neg hcond]
  · intro c hc hcne
    unfold replace_chain
    rw [hw, hc]
    simp [hcne]
  · intro hc
    unfold replace_chain
    rw [hw, hc]
  · intro hc
    unfold replace_chain
    rw [hw, hc]
    simp

theorem C5_witness :
    replace_chain sha0 ⟨[], [], []⟩ [some (1, [wBlock])]
      = (⟨[wBlock], [], []⟩, true) := by
  have h := (C5_replace_chain_behaviour sha0 ⟨[], [], []⟩ [some (1, [wBlock])]).2.2.2.1
    [wBlock] (by decide) (by decide)
  exact h

/-- C6: in a chain accepted by the validator, replacing any single field of
any one block (timestamp, nonce, previous_hash, merkle_root, one
transaction, or block_hash) by a different value makes the validator reject
the chain, provided the digest function is collision free. -/
theorem C6_mutation_invalidates (sha : String → String) (hinj : Function.Injective sha)
    (chain : List Block) (hv : is_chain_valid sha chain = true)
    (i : Nat) (hi : i < chain.length) (b' : Block)
    (hm : MutatedBlock (chain.getD i default) b') :
    is_chain_valid sha (chain.set i b') = false :=
  mutation_invalid sha hinj chain hv i hi b' hm

set_option maxRecDepth 10000 in
theorem C6_witness :
    is_chain_valid sha0 [wBlock] = true ∧
    is_chain_valid sha0 ([wBlock].set 0 { wBlock with timestamp := "u" }) = false :=
  ⟨by decide,
    C6_mutation_invalidates sha0 sha0_inj [wBlock] (by decide) 0 (by decide) _
      (MutatedBlock.timestamp ([wBlock].getD 0 default) "u" (by decide))⟩

theorem removeFirst_first_occ (tx : Transaction) :
    ∀ (pre post : List Transaction), tx ∉ pre →
      removeFirst tx (pre ++ tx :: post) = pre ++ post
  | [], post, _ => by simp [removeFirst]
  | p :: pre, post, hpre => by
    have hp : p ≠ tx := fun he => hpre (by simp [he])
    simp only [List.cons_append, removeFirst, if_neg hp]
    exact congrArg (fun z => p :: z)
      (removeFirst_first_occ tx pre post (fun hm => hpre (by simp [hm])))

/-- C7: `create_block` appends exactly one block, whose stored index is
`len(chain) + 1`; the new mempool is exactly the result of folding the mined
batch over the old mempool, where each batch transaction removes the first
pending transaction matching it by value when one exists (`removeFirst` on a
list that contains `tx` first at the boundary `pre ++ tx :: post` yields
`pre ++ post`) and removes nothing otherwise — hence at most one removal per
matching batch occurrence; consequently the remaining mempool is a
subsequence of the old one (original relative order preserved) and for every
value the number kept is the old count minus the number of matching batch
entries (capped by the old count); the peer set and the existing blocks are
untouched.  The `blockchain.py` variant of `create_block` performs the same
append and leaves the mempool unchanged. -/
theorem C7_create_block_frame (s : NodeState) (proof : Nat)
    (previous_hash merkle_root : String) (transactions : List Transaction)
    (timestamp block_hash : String) :
    (create_block s proof previous_hash merkle_root transactions timestamp
        block_hash).1.chain
      = s.chain
        ++ [(create_block s proof previous_hash merkle_root transactions timestamp
            block_hash).2] ∧
    (create_block s proof previous_hash merkle_root transactions timestamp
        block_hash).2.index = s.chain.length + 1 ∧
    ((create_block s proof previous_hash merkle_root transactions timestamp
        block_hash).1.transactions).Sublist s.transactions ∧
    (∀ v : Transaction,
      ((create_block s proof previous_hash merkle_root transactions timestamp
          block_hash).1.transactions).count v
        = s.transactions.count v - min (transactions.count v) (s.transactions.count v)) ∧
    (create_block s proof previous_hash merkle_root transactions timestamp
        block_hash).1.transactions = removeAll transactions s.transactions ∧
    (∀ m : List Transaction, removeAll [] m = m) ∧
    (∀ (tx : Transaction) (txs m : List Transaction),
      removeAll (tx :: txs) m
        = removeAll txs (if tx ∈ m then removeFirst tx m else m)) ∧
    (∀ (tx : Transaction) (m : List Transaction), tx ∉ m → removeFirst tx m = m) ∧
    (∀ (tx : Transaction) (pre post : List Transaction), tx ∉ pre →
      removeFirst tx (pre ++ tx :: post) = pre ++ post) ∧
    (create_block s proof previous_hash merkle_root transactions timestamp
        block_hash).1.nodes = s.nodes ∧
    (create_block_api s proof previous_hash merkle_root transactions timestamp
        block_hash).1.chain
      = s.chain
        ++ [(create_block_api s proof previous_hash merkle_root transactions timestamp
            block_hash).2] ∧
    (create_block_api s proof previous_hash merkle_root transactions timestamp
        block_hash).2.index = s.chain.length + 1 ∧
    (create_block_api s proof previous_hash merkle_root transactions timestamp
        block_hash).1.transactions = s.transactions :=
  ⟨rfl, rfl, removeAll_sublist transactions s.transactions,
    fun v => removeAll_count v transactions s.transactions, rfl,
    fun m => rfl, fun tx txs m => rfl,
    fun tx m h => removeFirst_of_not_mem tx m h,
    fun tx pre post h => removeFirst_first_occ tx pre post h, rfl, rfl, rfl, rfl⟩

theorem C7_witness :
    (⟨"X", "Y", 1⟩ : Transaction) ∉ ([] : List Transaction) ∧
    removeFirst (⟨"X", "Y", 1⟩ : Transaction)
        ([] ++ (⟨"X", "Y", 1⟩ : Transaction)
          :: [(⟨"P", "Q", 2⟩ : Transaction), ⟨"X", "Y", 1⟩])
      = [] ++ [(⟨"P", "Q", 2⟩ : Transaction), ⟨"X", "Y", 1⟩] :=
  ⟨by decide,
    (C7_create_block_frame ⟨[], [], []⟩ 0 "0" "0" [] "t" "h").2.2.2.2.2.2.2.2.1
      ⟨"X", "Y", 1⟩ [] [⟨"P", "Q", 2⟩, ⟨"X", "Y", 1⟩] (by decide)⟩

/-- C8 counterexample: in a state whose (validator-accepted) chain consists
of one block with stored index 7, `add_transaction` returns 8 — the last
block's stored index plus one — and not `len(chain) + 1 = 2` as the claim
asserts for every state. -/
theorem C8_counterexample :
    is_chain_valid sha0 (⟨[wBlock7], [], []⟩ : NodeState).chain = true ∧
    (add_transaction ⟨[wBlock7], [], []⟩ "Frank" "Grace" 5).2 = 8 ∧
    (⟨[wBlock7], [], []⟩ : NodeState).chain.length + 1 = 2 ∧
    (add_transaction ⟨[wBlock7], [], []⟩ "Frank" "Grace" 5).2
      ≠ (⟨[wBlock7], [], []⟩ : NodeState).chain.length + 1 := by
  refine ⟨by decide, by decide, rfl, by decide⟩

/-- C8 amended: `add_transaction` / `create_transaction` appends the
transaction to the end of the pending collection and returns 1 when the
chain is empty, otherwise the last block's stored `index` plus one; in
particular the return value equals `len(chain) + 1` whenever the last
block's stored index equals the chain length (as it does for chains built
by `create_block`). -/
theorem C8_submission_return (s : NodeState) (sender receiver : String) (amount : Int) :
    (add_transaction s sender receiver amount).1
      = { s with transactions := s.transactions
            ++ [{ sender := sender, receiver := receiver, amount := amount }] } ∧
    (s.chain = [] → (add_transaction s sender receiver amount).2 = 1) ∧
    (∀ b : Block, s.chain.getLast? = some b →
      (add_transaction s sender receiver amount).2 = b.index + 1) ∧
    (∀ b : Block, s.chain.getLast? = some b → b.index = s.chain.length →
      (add_transaction s sender receiver amount).2 = s.chain.length + 1) := by
  refine ⟨add_transaction_fst s sender receiver amount, ?_, ?_, ?_⟩
  · intro hnil
    simp [add_transaction, hnil]
  · intro b hb
    simp [add_transaction, hb]
  · intro b hb hidx
    simp [add_transaction, hb, hidx]

theorem C8_witness :
    (add_transaction ⟨[wBlock], [], []⟩ "Frank" "Grace" 5).2
      = (⟨[wBlock], [], []⟩ : NodeState).chain.length + 1 :=
  (C8_submission_return ⟨[wBlock], [], []⟩ "Frank" "Grace" 5).2.2.2 wBlock (by decide)
    (by decide)

/-- C9: when `mine_block` is invoked with fewer pending transactions than
the configured minimum (one for the node variant, five for the
`blockchain.py` variant), it returns the 400-error message and the state —
chain, mempool, and peer registry — is exactly what it was before the
call. -/
theorem C9_insufficient_mempool (sha : String → String)
    (node_address timestamp : String) (s s5 : NodeState) (h : _) (h5 : _)
    (hempty : s.transactions = []) (hlt5 : s5.transactions.length < 5) :
    mine_block_node sha node_address timestamp s h
      = (s, Except.error
          "No pending transactions to mine. Add at least 1 transaction first.") ∧
    mine_block_api sha timestamp s5 h5
      = (s5, Except.error ("Not enough transactions to mine (min 5). Current: "
          ++ natStr s5.transactions.length)) := by
  constructor
  · have hlt : s.transactions.length < 1 := by simp [hempty]
    simp only [mine_block_node, dif_pos hlt]
  · simp only [mine_block_api, dif_pos hlt5]

theorem C9_witness :
    mine_block_node sha0 "N" "t" ⟨[], [], []⟩ (fun hne => absurd rfl hne)
      = (⟨[], [], []⟩, Except.error
          "No pending transactions to mine. Add at least 1 transaction first.") ∧
    mine_block_api sha0 "t" ⟨[], [], []⟩ (fun hx => absurd hx (by decide))
      = (⟨[], [], []⟩, Except.error ("Not enough transactions to mine (min 5). Current: "
          ++ natStr ([] : List Transaction).length)) :=
  C9_insufficient_mempool sha0 "N" "t" ⟨[], [], []⟩ ⟨[], [], []⟩
    (fun hne => absurd rfl hne) (fun hx => absurd hx (by decide)) rfl (by decide)

/-- C10: `replace_chain` never installs an empty chain: when the candidate
surviving the strictly-longer-and-valid scan is the empty list, the local
chain is left unchanged and false is returned; whenever false is returned
the state is untouched, and the chain after the call is either the original
one or non-empty. -/
theorem C10_never_installs_empty (sha : String → String) (s : NodeState)
    (rs : List PeerResponse) :
    ((replaceLoop sha (s.chain.length, none) rs).2 = some [] →
      replace_chain sha s rs = (s, false)) ∧
    ((replace_chain sha s rs).2 = false → (replace_chain sha s rs).1 = s) ∧
    ((replace_chain sha s rs).1.chain = s.chain ∨
      (replace_chain sha s rs).1.chain ≠ []) := by
  refine ⟨?_, ?_, ?_⟩
  · intro hc
    unfold replace_chain
    rw [hc]
    simp
  · unfold replace_chain
    rcases (replaceLoop sha (s.chain.length, none) rs).2 with _ | c
    · intro
      rfl
    · by_cases hc : c ≠ []
      · simp [hc]
      · simp [hc]
  · unfold replace_chain
    rcases (replaceLoop sha (s.chain.length, none) rs).2 with _ | c
    · exact Or.inl rfl
    · by_cases hc : c ≠ []
      · simp [hc]
      · simp [hc]

theorem C10_witness :
    replace_chain sha0 ⟨[], [], []⟩ [some (5, [])] = (⟨[], [], []⟩, false) :=
  (C10_never_installs_empty sha0 ⟨[], [], []⟩ [some (5, [])]).1 (by decide)
